import Mathlib

/-
Verification of the recursive tree-to-code compiler (src/compiler/recursive.cc).

The development shallowly embeds the compiler: trees and the ensemble are the
data model of the spec (finite, acyclic, rooted binary trees, each node carrying
the integer id under which the source addresses it), thresholds and feature
values are modelled as rationals (the source only compares them with the total
order and exact equality), and the generated artifact is modelled as the
abstract code-block vocabulary the compiler builds from, with an evaluation
semantics for the generated prediction code.
-/

namespace Treelite

/-- Comparison operators of split nodes, restricted to the four order
comparisons the quantization claims range over. -/
inductive Op where
  | kLT
  | kLE
  | kGT
  | kGE
deriving DecidableEq, Repr

/-- Truth value of one comparison, over any linearly ordered type; this is the
meaning of the rendered source text lhs OpName(op) rhs. -/
def opEval {α : Type} [LinearOrder α] : Op → α → α → Bool
  | .kLT, a, b => decide (a < b)
  | .kLE, a, b => decide (a ≤ b)
  | .kGT, a, b => decide (b < a)
  | .kGE, a, b => decide (b ≤ a)

/-- Code returned after the binary-search loop of the generated quantize
helper exits (recursive.cc lines 316-322): an exact hit at low returns
low * 2, high = len returns len * 2, otherwise low * 2 + 1. -/
def quantizePost (arr : List ℚ) (v : ℚ) (low high : Nat) : Int :=
  if arr.getD low 0 = v then (low : Int) * 2
  else if high = arr.length then (arr.length : Int) * 2
  else (low : Int) * 2 + 1

/-- Loop of the generated quantize helper (recursive.cc lines 305-322): binary
search with low and high, guard low + 1 < high, mid = (low + high) / 2;
an exact hit returns mid * 2, a smaller value moves high to mid, a larger
value moves low to mid. The extra gas argument is a structural bound on the
number of iterations: whenever high - low ≤ gas the gas never runs out before
the guard fails, so the function computes exactly the while loop of the
source (the gas = 0 case can fire only when high ≤ low, where the guard is
false as well, and it returns the same post-loop result). -/
def qloop (arr : List ℚ) (v : ℚ) : Nat → Nat → Nat → Int
  | 0, low, high => quantizePost arr v low high
  | gas + 1, low, high =>
    if low + 1 < high then
      let mid := (low + high) / 2
      let mval := arr.getD mid 0
      if v = mval then (mid : Int) * 2
      else if v < mval then qloop arr v gas low mid
      else qloop arr v gas mid high
    else quantizePost arr v low high

/-- Generated quantize helper (recursive.cc lines 293-322): for a value v and
the sorted cut-point segment arr of the feature, return the integer code:
the sentinel -10 below arr[0], otherwise the result of the binary-search
loop started at low = 0, high = len. -/
def quantize (v : ℚ) (arr : List ℚ) : Int :=
  if v < arr.getD 0 0 then -10
  else qloop arr v arr.length 0 arr.length

lemma sorted_getD_lt_iff (arr : List ℚ) (hs : arr.Sorted (· < ·))
    {i j : Nat} (hi : i < arr.length) (hj : j < arr.length) :
    arr.getD i 0 < arr.getD j 0 ↔ i < j := by
  rw [List.getD_eq_get _ _ hi, List.getD_eq_get _ _ hj]
  constructor
  · intro h
    exact Fin.mk_lt_mk.mp (hs.get_strictMono.lt_iff_lt.mp h)
  · intro h
    exact hs.get_strictMono (Fin.mk_lt_mk.mpr h)

lemma sorted_getD_le_iff (arr : List ℚ) (hs : arr.Sorted (· < ·))
    {i j : Nat} (hi : i < arr.length) (hj : j < arr.length) :
    arr.getD i 0 ≤ arr.getD j 0 ↔ i ≤ j := by
  constructor
  · intro h
    by_contra hc
    exact absurd ((sorted_getD_lt_iff arr hs hj hi).mpr (by omega)) (not_lt.mpr h)
  · intro h
    rcases eq_or_lt_of_le h with rfl | h
    · exact le_refl _
    · exact le_of_lt ((sorted_getD_lt_iff arr hs hi hj).mpr h)

lemma sorted_getD_eq_iff (arr : List ℚ) (hs : arr.Sorted (· < ·))
    {i j : Nat} (hi : i < arr.length) (hj : j < arr.length) :
    arr.getD i 0 = arr.getD j 0 ↔ i = j := by
  constructor
  · intro h
    have h1 := (sorted_getD_le_iff arr hs hi hj).mp (le_of_eq h)
    have h2 := (sorted_getD_le_iff arr hs hj hi).mp (le_of_eq h.symm)
    omega
  · intro h
    rw [h]

/-- If v occurs in the sorted array at index i inside the bracket, the loop
returns i * 2. -/
lemma qloop_mem (arr : List ℚ) (hs : arr.Sorted (· < ·)) (v : ℚ) :
    ∀ gas low high i, high - low ≤ gas → low ≤ i → i < high →
      high ≤ arr.length → arr.getD i 0 = v →
      qloop arr v gas low high = (i : Int) * 2 := by
  intro gas
  induction gas with
  | zero =>
    intro low high i hgas hlow hhigh hhl hv
    omega
  | succ g ih =>
    intro low high i hgas hlow hhigh hhl hv
    have hilen : i < arr.length := lt_of_lt_of_le hhigh hhl
    by_cases hguard : low + 1 < high
    · have hml : low < (low + high) / 2 := by omega
      have hmh : (low + high) / 2 < high := by omega
      have hmlen : (low + high) / 2 < arr.length := lt_of_lt_of_le hmh hhl
      rcases lt_trichotomy i ((low + high) / 2) with hlt | heq | hgt
      · have hvm : v < arr.getD ((low + high) / 2) 0 := by
          rw [← hv]
          exact (sorted_getD_lt_iff arr hs hilen hmlen).mpr hlt
        simp only [qloop, if_pos hguard, if_neg (ne_of_lt hvm), if_pos hvm]
        exact ih low ((low + high) / 2) i (by omega) hlow hlt (le_of_lt hmlen) hv
      · have hvm : v = arr.getD ((low + high) / 2) 0 := by rw [← heq, hv]
        simp only [qloop, if_pos hguard, if_pos hvm]
        rw [heq]
      · have hvm : arr.getD ((low + high) / 2) 0 < v := by
          rw [← hv]
          exact (sorted_getD_lt_iff arr hs hmlen hilen).mpr hgt
        simp only [qloop, if_pos hguard, if_neg (ne_of_gt hvm),
                   if_neg (not_lt.mpr (le_of_lt hvm))]
        exact ih ((low + high) / 2) high i (by omega) (le_of_lt hgt) hhigh hhl hv
    · have hil : i = low := by omega
      subst hil
      simp only [qloop, if_neg hguard, quantizePost, if_pos hv]

/-- If v is strictly above the last element, the loop with high = len returns
len * 2. -/
lemma qloop_above (arr : List ℚ) (hs : arr.Sorted (· < ·)) (v : ℚ)
    (hv : arr.getD (arr.length - 1) 0 < v) :
    ∀ gas low, arr.length - low ≤ gas → low < arr.length →
      qloop arr v gas low arr.length = (arr.length : Int) * 2 := by
  intro gas
  induction gas with
  | zero =>
    intro low hgas hlow
    omega
  | succ g ih =>
    intro low hgas hlow
    by_cases hguard : low + 1 < arr.length
    · have hml : low < (low + arr.length) / 2 := by omega
      have hmh : (low + arr.length) / 2 < arr.length := by omega
      have hvm : arr.getD ((low + arr.length) / 2) 0 < v := by
        refine lt_of_le_of_lt ?_ hv
        exact (sorted_getD_le_iff arr hs hmh (by omega)).mpr (by omega)
      simp only [qloop, if_pos hguard, if_neg (ne_of_gt hvm),
                 if_neg (not_lt.mpr (le_of_lt hvm))]
      exact ih ((low + arr.length) / 2) (by omega) hmh
    · have hil : low = arr.length - 1 := by omega
      have hne : arr.getD low 0 ≠ v := by
        rw [hil]
        exact ne_of_lt hv
      simp only [qloop, if_neg hguard, quantizePost, if_neg hne]
      simp

/-- If v lies strictly between the adjacent elements at i and i + 1 and the
bracket contains i, the loop returns i * 2 + 1. -/
lemma qloop_between (arr : List ℚ) (hs : arr.Sorted (· < ·)) (v : ℚ)
    (i : Nat) (hi : i + 1 < arr.length)
    (h1 : arr.getD i 0 < v) (h2 : v < arr.getD (i + 1) 0) :
    ∀ gas low high, high - low ≤ gas → low ≤ i → i < high →
      high ≤ arr.length →
      qloop arr v gas low high = (i : Int) * 2 + 1 := by
  intro gas
  induction gas with
  | zero =>
    intro low high hgas hlow hhigh hhl
    omega
  | succ g ih =>
    intro low high hgas hlow hhigh hhl
    by_cases hguard : low + 1 < high
    · have hml : low < (low + high) / 2 := by omega
      have hmh : (low + high) / 2 < high := by omega
      have hmlen : (low + high) / 2 < arr.length := lt_of_lt_of_le hmh hhl
      by_cases hside : (low + high) / 2 ≤ i
      · have hvm : arr.getD ((low + high) / 2) 0 < v := by
          refine lt_of_le_of_lt ?_ h1
          exact (sorted_getD_le_iff arr hs hmlen (by omega)).mpr hside
        simp only [qloop, if_pos hguard, if_neg (ne_of_gt hvm),
                   if_neg (not_lt.mpr (le_of_lt hvm))]
        exact ih ((low + high) / 2) high (by omega) hside hhigh hhl
      · have hvm : v < arr.getD ((low + high) / 2) 0 := by
          refine lt_of_lt_of_le h2 ?_
          exact (sorted_getD_le_iff arr hs hi hmlen).mpr (by omega)
        simp only [qloop, if_pos hguard, if_neg (ne_of_lt hvm), if_pos hvm]
        exact ih low ((low + high) / 2) (by omega) hlow (by omega) (le_of_lt hmlen)
    · obtain rfl : low = i := by omega
      have hne : arr.getD low 0 ≠ v := ne_of_lt h1
      have hnlen : high ≠ arr.length := by omega
      simp only [qloop, if_neg hguard, quantizePost, if_neg hne, if_neg hnlen]

lemma quantize_below (arr : List ℚ) (v : ℚ) (hv : v < arr.getD 0 0) :
    quantize v arr = -10 := by
  simp only [quantize, if_pos hv]

lemma quantize_at (arr : List ℚ) (hs : arr.Sorted (· < ·)) (i : Nat)
    (hi : i < arr.length) :
    quantize (arr.getD i 0) arr = (i : Int) * 2 := by
  have h0 : ¬ arr.getD i 0 < arr.getD 0 0 :=
    not_lt.mpr ((sorted_getD_le_iff arr hs (by omega) hi).mpr (by omega))
  simp only [quantize, if_neg h0]
  exact qloop_mem arr hs _ arr.length 0 arr.length i (by omega) (by omega) hi
    (le_refl _) rfl

lemma quantize_above (arr : List ℚ) (hs : arr.Sorted (· < ·)) (v : ℚ)
    (h0 : 0 < arr.length) (hv : arr.getD (arr.length - 1) 0 < v) :
    quantize v arr = (arr.length : Int) * 2 := by
  have hnb : ¬ v < arr.getD 0 0 := by
    refine not_lt.mpr (le_of_lt (lt_of_le_of_lt ?_ hv))
    exact (sorted_getD_le_iff arr hs (by omega) (by omega)).mpr (by omega)
  simp only [quantize, if_neg hnb]
  exact qloop_above arr hs v hv arr.length 0 (by omega) h0

lemma quantize_between (arr : List ℚ) (hs : arr.Sorted (· < ·)) (v : ℚ)
    (i : Nat) (hi : i + 1 < arr.length)
    (h1 : arr.getD i 0 < v) (h2 : v < arr.getD (i + 1) 0) :
    quantize v arr = (i : Int) * 2 + 1 := by
  have hnb : ¬ v < arr.getD 0 0 := by
    refine not_lt.mpr (le_of_lt (lt_of_le_of_lt ?_ h1))
    exact (sorted_getD_le_iff arr hs (by omega) (by omega)).mpr (by omega)
  simp only [quantize, if_neg hnb]
  exact qloop_between arr hs v i hi h1 h2 arr.length 0 arr.length (by omega)
    (by omega) (by omega) (le_refl _)

lemma opEval_congr {a b : Int} {x y : ℚ}
    (hlt : a < b ↔ x < y) (hle : a ≤ b ↔ x ≤ y) (op : Op) :
    opEval op a b = opEval op x y := by
  have hgt : b < a ↔ y < x := by
    rw [← not_le, ← not_le]
    exact not_congr hle
  have hge : b ≤ a ↔ y ≤ x := by
    rw [← not_lt, ← not_lt]
    exact not_congr hlt
  cases op
  · exact decide_eq_decide.mpr hlt
  · exact decide_eq_decide.mpr hle
  · exact decide_eq_decide.mpr hgt
  · exact decide_eq_decide.mpr hge

/-- C2: the quantization helper, applied to any value v and a non-empty,
sorted, duplicate-free cut-point array of length len, returns the sentinel
-10 when v is strictly below the first element, i * 2 when v equals the
element at index i, len * 2 when v is strictly above the last element, and
i * 2 + 1 when v lies strictly between the adjacent elements at i and i + 1,
where the returned code is computed by the embedded binary search that starts
from low = 0 and high = len, iterates while low + 1 < high with
mid = (low + high) / 2, and applies the post-loop case split. -/
theorem quantize_code_characterization (arr : List ℚ)
    (hs : arr.Sorted (· < ·)) (h0 : 0 < arr.length) (v : ℚ) :
    (v < arr.getD 0 0 → quantize v arr = -10)
    ∧ (∀ i, i < arr.length → v = arr.getD i 0 → quantize v arr = (i : Int) * 2)
    ∧ (arr.getD (arr.length - 1) 0 < v → quantize v arr = (arr.length : Int) * 2)
    ∧ (∀ i, i + 1 < arr.length → arr.getD i 0 < v → v < arr.getD (i + 1) 0 →
        quantize v arr = (i : Int) * 2 + 1) := by
  refine ⟨fun hv => quantize_below arr v hv, fun i hi hv => ?_,
          fun hv => quantize_above arr hs v h0 hv,
          fun i hi hl hr => quantize_between arr hs v i hi hl hr⟩
  rw [hv]
  exact quantize_at arr hs i hi

/-- Witness for C2 on the concrete cut-point array [1, 3]: one input per
class (below, exact hit, above, strictly between). -/
theorem quantize_code_characterization_witness :
    quantize 0 [1, 3] = -10 ∧ quantize 3 [1, 3] = 2
    ∧ quantize 5 [1, 3] = 4 ∧ quantize 2 [1, 3] = 1 := by
  refine ⟨(quantize_code_characterization [1, 3] (by decide) (by decide) 0).1
            (by decide),
          (quantize_code_characterization [1, 3] (by decide) (by decide) 3).2.1
            1 (by decide) (by decide),
          (quantize_code_characterization [1, 3] (by decide) (by decide) 5).2.2.1
            (by decide),
          (quantize_code_characterization [1, 3] (by decide) (by decide) 2).2.2.2
            0 (by decide) (by decide) (by decide)⟩

/-- C1: for a sorted, duplicate-free cut-point array holding threshold t at
index p, and for every comparison operator among the four order comparisons,
comparing the code produced by the quantization helper for an input v against
the literal p * 2 yields the same truth value as comparing v against t
directly, for every v that is strictly below the first cut point, equal to
some cut point, strictly between two adjacent cut points, or strictly above
the last cut point. -/
theorem quantize_comparison_equiv (cuts : List ℚ) (hs : cuts.Sorted (· < ·))
    (p : Nat) (hp : p < cuts.length) (op : Op) (v : ℚ)
    (hclass :
      v < cuts.getD 0 0
      ∨ (∃ i, i < cuts.length ∧ v = cuts.getD i 0)
      ∨ (∃ i, i + 1 < cuts.length ∧ cuts.getD i 0 < v ∧ v < cuts.getD (i + 1) 0)
      ∨ cuts.getD (cuts.length - 1) 0 < v) :
    opEval op (quantize v cuts) ((p : Int) * 2) = opEval op v (cuts.getD p 0) := by
  rcases hclass with hv | ⟨i, hi, hv⟩ | ⟨i, hi, h1, h2⟩ | hv
  · rw [quantize_below cuts v hv]
    have hvt : v < cuts.getD p 0 :=
      lt_of_lt_of_le hv ((sorted_getD_le_iff cuts hs (by omega) hp).mpr (by omega))
    exact opEval_congr (iff_of_true (by omega) hvt)
      (iff_of_true (by omega) (le_of_lt hvt)) op
  · rw [hv, quantize_at cuts hs i hi]
    refine opEval_congr ?_ ?_ op
    · rw [sorted_getD_lt_iff cuts hs hi hp]
      omega
    · rw [sorted_getD_le_iff cuts hs hi hp]
      omega
  · rw [quantize_between cuts hs v i hi h1 h2]
    by_cases hip : i < p
    · have hvt : v < cuts.getD p 0 :=
        lt_of_lt_of_le h2 ((sorted_getD_le_iff cuts hs (by omega) hp).mpr (by omega))
      exact opEval_congr (iff_of_true (by omega) hvt)
        (iff_of_true (by omega) (le_of_lt hvt)) op
    · have hvt : cuts.getD p 0 < v :=
        lt_of_le_of_lt ((sorted_getD_le_iff cuts hs hp (by omega)).mpr (by omega)) h1
      exact opEval_congr (iff_of_false (by omega) (not_lt.mpr (le_of_lt hvt)))
        (iff_of_false (by omega) (not_le.mpr hvt)) op
  · rw [quantize_above cuts hs v (by omega) hv]
    have hvt : cuts.getD p 0 < v :=
      lt_of_le_of_lt ((sorted_getD_le_iff cuts hs hp (by omega)).mpr (by omega)) hv
    exact opEval_congr (iff_of_false (by omega) (not_lt.mpr (le_of_lt hvt)))
      (iff_of_false (by omega) (not_le.mpr hvt)) op

/-- Witness for C1 on the cut-point array [1, 3] with p = 1, t = 3: an exact
hit, a strictly-between value, a below value and an above value, under the
less-than operator, each applied through the theorem. -/
theorem quantize_comparison_equiv_witness :
    opEval Op.kLT (quantize 3 [1, 3]) ((1 : Int) * 2) = opEval Op.kLT (3 : ℚ) 3
    ∧ opEval Op.kLE (quantize 2 [1, 3]) ((1 : Int) * 2) = opEval Op.kLE (2 : ℚ) 3
    ∧ opEval Op.kGT (quantize 0 [1, 3]) ((0 : Int) * 2) = opEval Op.kGT (0 : ℚ) 1
    ∧ opEval Op.kGE (quantize 5 [1, 3]) ((1 : Int) * 2) = opEval Op.kGE (5 : ℚ) 3 := by
  refine ⟨?_, ?_, ?_, ?_⟩
  · have h := quantize_comparison_equiv [1, 3] (by decide) 1 (by decide) Op.kLT 3
      (Or.inr (Or.inl ⟨1, by decide, by decide⟩))
    simpa using h
  · have h := quantize_comparison_equiv [1, 3] (by decide) 1 (by decide) Op.kLE 2
      (Or.inr (Or.inr (Or.inl ⟨0, by decide, by decide, by decide⟩)))
    simpa using h
  · have h := quantize_comparison_equiv [1, 3] (by decide) 0 (by decide) Op.kGT 0
      (Or.inl (by decide))
    simpa using h
  · have h := quantize_comparison_equiv [1, 3] (by decide) 1 (by decide) Op.kGE 5
      (Or.inr (Or.inr (Or.inr (by decide))))
    simpa using h

/-- Branch likelihood hint carried by a conditional block. -/
inductive LikelyDirection where
  | kNone
  | kLeft
  | kRight
deriving DecidableEq, Repr

/-- Decision-tree node of the data model, carrying the integer id under which
the source addresses the node inside its tree (node ids index the per-node
traversal counts). A node is a leaf with a value or a split with feature id,
comparison operator, threshold, missing-value default direction and two
children; the inductive shape is the finite, acyclic, rooted binary structure
the data model guarantees. -/
inductive TreeNode where
  | leaf (nid : Nat) (leaf_value : ℚ)
  | split (nid : Nat) (split_index : Nat) (op : Op) (threshold : ℚ)
      (default_left : Bool) (cleft cright : TreeNode)
deriving DecidableEq, Repr

/-- Integer id of a node. -/
def TreeNode.nodeId : TreeNode → Nat
  | .leaf nid _ => nid
  | .split nid _ _ _ _ _ _ => nid

/-- Ensemble: ordered trees plus the feature count. -/
structure Model where
  num_features : Nat
  trees : List TreeNode
deriving DecidableEq, Repr

/-- Data stored by SplitCondition (recursive.cc lines 27-36 and 46-51): split
index, default direction, comparison operator and threshold of the node. -/
structure SplitConditionData where
  split_index : Nat
  default_left : Bool
  op : Op
  threshold : ℚ
deriving DecidableEq, Repr

/-- Modelled from the spec: the abstract code-block vocabulary of the
emission library (semantic.h, outside src) the compiler builds from:
plain-text-block, sequence-of-blocks, function-block, and a conditional
block with an optional likelihood hint whose first block is the branch taken
when the condition is true and whose second block is the branch taken when it
is false. The accumulation statement a leaf compiles to (a PlainBlock of the
form sum += value) is kept with its value. -/
inductive CBlock where
  | plain (lines : List String)
  | accum (leaf_value : ℚ)
  | ifelse (cond : SplitConditionData) (thenBlock elseBlock : CBlock)
      (dir : LikelyDirection)
  | seq (blocks : List CBlock)
  | func (signature : String) (body : CBlock)
deriving Repr

/-- Likelihood hint chosen by the walker (recursive.cc lines 156-163): none
without counts; otherwise left when the count of the left child exceeds the
count of the right child, and right otherwise. -/
def likelyDir (counts : List Nat) (cleft cright : TreeNode) : LikelyDirection :=
  if counts.isEmpty then .kNone
  else if counts.getD cleft.nodeId 0 > counts.getD cright.nodeId 0 then .kLeft
  else .kRight

/-- Recursive tree walker (recursive.cc lines 147-171): a leaf becomes its
accumulation statement; a split becomes a conditional block whose condition
is the SplitCondition of the node, whose first block is the walk of the left
child, whose second block is the walk of the right child, and whose hint is
likelyDir. -/
def walkTree (counts : List Nat) : TreeNode → CBlock
  | .leaf _ v => .accum v
  | .split _ si op th dl l r =>
      .ifelse ⟨si, dl, op, th⟩ (walkTree counts l) (walkTree counts r)
        (likelyDir counts l r)

/-- Input record: one slot per feature, either missing or a numeric value
(the union Entry of the generated code, where the source marks a missing slot
by missing = -1). -/
def entryPresent (data : List (Option ℚ)) (i : Nat) : Bool :=
  (data.getD i none).isSome

/-- Numeric value of a slot; meaningful when the slot is present. -/
def entryValue (data : List (Option ℚ)) (i : Nat) : ℚ :=
  (data.getD i none).getD 0

/-- Truth value of the boolean source expression built by
SplitCondition::Compile (recursive.cc lines 38-44) under the Identity
(NoQuantize) numeric adapter (lines 198-205): with default_left the
expression is not-present or numeric, otherwise present and numeric, where
numeric compares the feature value against the threshold with the operator
of the node. -/
def evalSplitCondition (c : SplitConditionData) (data : List (Option ℚ)) : Bool :=
  if c.default_left then
    !(entryPresent data c.split_index)
      || opEval c.op (entryValue data c.split_index) c.threshold
  else
    (entryPresent data c.split_index)
      && opEval c.op (entryValue data c.split_index) c.threshold

/-- Modelled from the spec: the routing decision of a split in the direct
(unquantized) tree semantics. A missing value routes by default_left; a
present value routes left exactly when the comparison holds (the section 8
scenario of the spec routes value 0.2 under threshold 0.5 with operator
less-than to the left leaf). -/
def routeLeft (si : Nat) (op : Op) (th : ℚ) (dl : Bool)
    (data : List (Option ℚ)) : Bool :=
  match data.getD si none with
  | none => dl
  | some x => opEval op x th

/-- Modelled from the spec: direct interpretation of a tree on an input
record, the reference semantics the compiled code must reproduce. -/
def treeEval (data : List (Option ℚ)) : TreeNode → ℚ
  | .leaf _ v => v
  | .split _ si op th dl l r =>
      if routeLeft si op th dl data then treeEval data l else treeEval data r

mutual

/-- Evaluation of generated code blocks on an input record: the total the
block adds to the running sum. A conditional contributes its first block when
its condition holds and its second block otherwise. -/
def genEval (data : List (Option ℚ)) : CBlock → ℚ
  | .plain _ => 0
  | .accum v => v
  | .ifelse c tb eb _ =>
      if evalSplitCondition c data then genEval data tb else genEval data eb
  | .seq bs => genEvalList data bs
  | .func _ b => genEval data b

/-- Total contribution of a sequence of blocks. -/
def genEvalList (data : List (Option ℚ)) : List CBlock → ℚ
  | [] => 0
  | b :: bs => genEval data b + genEvalList data bs

end

/-- Hint field of a block (none for non-conditional blocks). -/
def dirOf : CBlock → LikelyDirection
  | .ifelse _ _ _ d => d
  | _ => .kNone

mutual

/-- True when no conditional block anywhere inside carries a hint. -/
def noHints : CBlock → Bool
  | .plain _ => true
  | .accum _ => true
  | .ifelse _ tb eb d => (d == .kNone) && noHints tb && noHints eb
  | .seq bs => noHintsList bs
  | .func _ b => noHints b

/-- True when no block of the list carries a hint anywhere inside. -/
def noHintsList : List CBlock → Bool
  | [] => true
  | b :: bs => noHints b && noHintsList bs

end

/-- The compiled condition of a split is true exactly when the direct
semantics routes to the left child. -/
lemma evalSplitCondition_eq_routeLeft (si : Nat) (op : Op) (th : ℚ) (dl : Bool)
    (data : List (Option ℚ)) :
    evalSplitCondition ⟨si, dl, op, th⟩ data = routeLeft si op th dl data := by
  unfold evalSplitCondition routeLeft entryPresent entryValue
  cases h : data.getD si none with
  | none => cases dl <;> simp [h]
  | some x => cases dl <;> simp [h]

/-- Compiled code of a tree computes the direct tree semantics. -/
lemma genEval_walkTree (counts : List Nat) (t : TreeNode)
    (data : List (Option ℚ)) :
    genEval data (walkTree counts t) = treeEval data t := by
  induction t with
  | leaf nid v => simp [walkTree, genEval, treeEval]
  | split nid si op th dl l r ihl ihr =>
      simp [walkTree, genEval, treeEval, evalSplitCondition_eq_routeLeft,
            ihl, ihr]

/-- Concrete split node used by counterexamples: feature 0, operator
less-than, threshold 2, default right, left leaf 10 with id 1, right leaf 20
with id 2. -/
def exSplit : TreeNode :=
  .split 0 0 .kLT 2 false (.leaf 1 10) (.leaf 2 20)

/-- C3 counterexample: for the concrete split with distinct leaf children,
the first (true) branch of the emitted conditional block is the code of the
LEFT child, not of the right child; moreover, on a concrete present input
with value 1 the emitted condition (threshold 2, operator less-than) is true
while the direct semantics routes to the LEFT child, so the condition means
branch left rather than branch right. -/
theorem walker_true_branch_counterexample :
    walkTree [] exSplit
      = CBlock.ifelse ⟨0, false, Op.kLT, 2⟩ (CBlock.accum 10) (CBlock.accum 20)
          LikelyDirection.kNone
    ∧ CBlock.accum 10 = walkTree [] (TreeNode.leaf 1 10)
    ∧ CBlock.accum 10 ≠ CBlock.accum 20
    ∧ evalSplitCondition ⟨0, false, Op.kLT, 2⟩ [some 1] = true
    ∧ routeLeft 0 Op.kLT 2 false [some 1] = true
    ∧ treeEval [some 1] exSplit = 10 := by
  refine ⟨rfl, rfl, ?_, by decide, by decide, rfl⟩
  intro h
  injection h with h1
  exact absurd h1 (by norm_num)

/-- C3 amended: the Split Condition Builder produces a boolean expression
meaning the input should branch LEFT (it is true exactly when the direct
semantics routes to the left child, including the missing-value default),
and the walker places the LEFT child as the true-branch and the RIGHT child
as the false-branch of the conditional; with this pairing of polarity and
placement the compiled code of every tree computes the direct tree
semantics. -/
theorem walker_branch_placement (counts : List Nat) (nid si : Nat) (op : Op)
    (th : ℚ) (dl : Bool) (l r : TreeNode) (data : List (Option ℚ))
    (t : TreeNode) :
    walkTree counts (.split nid si op th dl l r)
      = CBlock.ifelse ⟨si, dl, op, th⟩ (walkTree counts l) (walkTree counts r)
          (likelyDir counts l r)
    ∧ evalSplitCondition ⟨si, dl, op, th⟩ data = routeLeft si op th dl data
    ∧ genEval data (walkTree counts t) = treeEval data t :=
  ⟨rfl, evalSplitCondition_eq_routeLeft si op th dl data,
   genEval_walkTree counts t data⟩

/-- C6: for every split node, a missing value in the split feature slot makes
the compiled conditional route to the code of the left child when
default_left is true and to the code of the right child when default_left is
false, for every operator and threshold; the emitted condition is
(not present) or numeric when default_left is true, and present and numeric
when it is false. -/
theorem missing_value_routing (counts : List Nat) (nid si : Nat) (op : Op)
    (th : ℚ) (l r : TreeNode) (data : List (Option ℚ))
    (hmiss : data.getD si none = none) :
    evalSplitCondition ⟨si, true, op, th⟩ data
      = (!(entryPresent data si) || opEval op (entryValue data si) th)
    ∧ evalSplitCondition ⟨si, false, op, th⟩ data
      = ((entryPresent data si) && opEval op (entryValue data si) th)
    ∧ genEval data (walkTree counts (.split nid si op th true l r))
        = genEval data (walkTree counts l)
    ∧ genEval data (walkTree counts (.split nid si op th false l r))
        = genEval data (walkTree counts r) := by
  have hpres : entryPresent data si = false := by
    unfold entryPresent
    rw [hmiss]
    rfl
  refine ⟨rfl, rfl, ?_, ?_⟩
  · simp [walkTree, genEval, evalSplitCondition, hpres]
  · simp [walkTree, genEval, evalSplitCondition, hpres]

/-- Witness for C6: one split with a missing input slot, once with
default_left true (routes to the left leaf) and once with default_left false
(routes to the right leaf). -/
theorem missing_value_routing_witness :
    genEval [none]
        (walkTree [] (.split 0 0 Op.kLT 2 true (.leaf 1 10) (.leaf 2 20)))
      = genEval [none] (walkTree [] (TreeNode.leaf 1 10))
    ∧ genEval [none]
        (walkTree [] (.split 0 0 Op.kLT 2 false (.leaf 1 10) (.leaf 2 20)))
      = genEval [none] (walkTree [] (TreeNode.leaf 2 20)) := by
  have h := missing_value_routing [] 0 0 Op.kLT 2 (.leaf 1 10) (.leaf 2 20)
    [none] rfl
  exact ⟨h.2.2.1, h.2.2.2⟩

/-- C8: when a non-empty traversal-count sequence is supplied, the emitted
conditional of a split carries a left hint when the accumulated count of the
left child exceeds the count of the right child and a right hint in the
opposite case; without counts no hint is emitted. -/
theorem likely_hint_from_counts (counts : List Nat) (nid si : Nat) (op : Op)
    (th : ℚ) (dl : Bool) (l r : TreeNode) :
    (counts ≠ [] →
      (counts.getD l.nodeId 0 > counts.getD r.nodeId 0 →
        dirOf (walkTree counts (.split nid si op th dl l r)) = .kLeft)
      ∧ (counts.getD r.nodeId 0 > counts.getD l.nodeId 0 →
        dirOf (walkTree counts (.split nid si op th dl l r)) = .kRight))
    ∧ dirOf (walkTree [] (.split nid si op th dl l r)) = .kNone := by
  constructor
  · intro hc
    rcases counts with _ | ⟨c0, cs⟩
    · exact absurd rfl hc
    constructor
    · intro hgt
      simp only [List.getD_eq_getElem?_getD] at hgt
      simp [walkTree, dirOf, likelyDir, hgt]
    · intro hgt
      have hngt : ¬ (c0 :: cs).getD l.nodeId 0 > (c0 :: cs).getD r.nodeId 0 := by
        omega
      simp only [List.getD_eq_getElem?_getD] at hngt
      simp [walkTree, dirOf, likelyDir, hngt]
  · simp [walkTree, dirOf, likelyDir]

/-- Witness for C8: counts [0, 5, 3] put the left child (id 1, count 5) ahead
of the right child (id 2, count 3) and yield a left hint; counts [0, 3, 5]
yield a right hint; no counts yield no hint. -/
theorem likely_hint_from_counts_witness :
    dirOf (walkTree [0, 5, 3]
        (.split 0 0 Op.kLT 2 true (.leaf 1 10) (.leaf 2 20)))
      = LikelyDirection.kLeft
    ∧ dirOf (walkTree [0, 3, 5]
        (.split 0 0 Op.kLT 2 true (.leaf 1 10) (.leaf 2 20)))
      = LikelyDirection.kRight
    ∧ dirOf (walkTree []
        (.split 0 0 Op.kLT 2 true (.leaf 1 10) (.leaf 2 20)))
      = LikelyDirection.kNone := by
  refine ⟨((likely_hint_from_counts [0, 5, 3] 0 0 Op.kLT 2 true
            (.leaf 1 10) (.leaf 2 20)).1 (by decide)).1 (by decide),
          ((likely_hint_from_counts [0, 3, 5] 0 0 Op.kLT 2 true
            (.leaf 1 10) (.leaf 2 20)).1 (by decide)).2 (by decide),
          (likely_hint_from_counts [] 0 0 Op.kLT 2 true
            (.leaf 1 10) (.leaf 2 20)).2⟩

/-- C9: with a non-empty traversal-count sequence, a tie between the counts
of the two children yields a RIGHT hint, and whenever counts are present the
hint is never none. -/
theorem likely_hint_tie_right (counts : List Nat) (nid si : Nat) (op : Op)
    (th : ℚ) (dl : Bool) (l r : TreeNode) (hc : counts ≠ []) :
    (counts.getD l.nodeId 0 = counts.getD r.nodeId 0 →
      dirOf (walkTree counts (.split nid si op th dl l r))
        = LikelyDirection.kRight)
    ∧ dirOf (walkTree counts (.split nid si op th dl l r))
        ≠ LikelyDirection.kNone := by
  rcases counts with _ | ⟨c0, cs⟩
  · exact absurd rfl hc
  constructor
  · intro htie
    have hngt : ¬ (c0 :: cs).getD l.nodeId 0 > (c0 :: cs).getD r.nodeId 0 := by
      omega
    simp only [List.getD_eq_getElem?_getD] at hngt
    simp [walkTree, dirOf, likelyDir, hngt]
  · by_cases hgt : (c0 :: cs).getD l.nodeId 0 > (c0 :: cs).getD r.nodeId 0
    all_goals simp only [List.getD_eq_getElem?_getD] at hgt
    · simp [walkTree, dirOf, likelyDir, hgt]
    · simp [walkTree, dirOf, likelyDir, hgt]

/-- Witness for C9: counts [7, 4, 4] tie the two children (ids 1 and 2, count
4 each) and the emitted hint is right, in particular not none. -/
theorem likely_hint_tie_right_witness :
    dirOf (walkTree [7, 4, 4]
        (.split 0 0 Op.kLT 2 true (.leaf 1 10) (.leaf 2 20)))
      = LikelyDirection.kRight
    ∧ dirOf (walkTree [7, 4, 4]
        (.split 0 0 Op.kLT 2 true (.leaf 1 10) (.leaf 2 20)))
      ≠ LikelyDirection.kNone := by
  have h := likely_hint_tie_right [7, 4, 4] 0 0 Op.kLT 2 true
    (.leaf 1 10) (.leaf 2 20) (by decide)
  exact ⟨h.1 (by decide), h.2⟩

/-- Per-feature threshold collection over one tree (the per-tree part of
ExtractCutPoints, recursive.cc lines 343-359): the set of thresholds of the
split nodes on feature f. The source walks the tree with a level-order queue
and inserts into an ordered set; only the resulting set matters (the spec
notes traversal order is irrelevant), so the embedding collects the same set
by structural recursion. -/
def collectThresholds (f : Nat) : TreeNode → Finset ℚ
  | .leaf _ _ => ∅
  | .split _ si _ th _ l r =>
      (if si = f then {th} else ∅) ∪ collectThresholds f l
        ∪ collectThresholds f r

/-- Thresholds used on feature f anywhere in the ensemble. -/
def ensembleThresholds (model : Model) (f : Nat) : Finset ℚ :=
  model.trees.foldr (fun tr acc => collectThresholds f tr ∪ acc) ∅

/-- ExtractCutPoints (recursive.cc lines 336-365): for every feature id below
num_features, the sorted duplicate-free list of thresholds used by split
nodes on that feature across all trees (the source accumulates each feature
into an ordered set and copies it out in ascending order). -/
def extractCutPoints (model : Model) : List (List ℚ) :=
  (List.range model.num_features).map
    (fun f => (ensembleThresholds model f).sort (· ≤ ·))

/-- True when some split node on feature f in the tree has threshold t. -/
def containsSplit (f : Nat) (t : ℚ) : TreeNode → Bool
  | .leaf _ _ => false
  | .split _ si _ th _ l r =>
      (si == f && th == t) || containsSplit f t l || containsSplit f t r

lemma mem_collectThresholds (f : Nat) (t : ℚ) (tr : TreeNode) :
    t ∈ collectThresholds f tr ↔ containsSplit f t tr = true := by
  induction tr with
  | leaf nid v => simp [collectThresholds, containsSplit]
  | split nid si op th dl l r ihl ihr =>
      by_cases hsi : si = f
      · simp [collectThresholds, containsSplit, ihl, ihr, hsi]
        rw [or_assoc, eq_comm]
      · simp [collectThresholds, containsSplit, ihl, ihr, hsi]

lemma mem_ensembleThresholds (model : Model) (f : Nat) (t : ℚ) :
    t ∈ ensembleThresholds model f
      ↔ ∃ tr ∈ model.trees, containsSplit f t tr = true := by
  have h : ∀ ts : List TreeNode,
      t ∈ ts.foldr (fun tr acc => collectThresholds f tr ∪ acc) ∅
        ↔ ∃ tr ∈ ts, containsSplit f t tr = true := by
    intro ts
    induction ts with
    | nil => simp
    | cons a as ih => simp [Finset.mem_union, mem_collectThresholds, ih]
  exact h model.trees

lemma extractCutPoints_getD (model : Model) (f : Nat)
    (hf : f < model.num_features) :
    (extractCutPoints model).getD f []
      = (ensembleThresholds model f).sort (· ≤ ·) := by
  unfold extractCutPoints
  have hlen : f < ((List.range model.num_features).map
      (fun f => (ensembleThresholds model f).sort (· ≤ ·))).length := by
    simpa using hf
  rw [List.getD_eq_getElem _ _ hlen]
  simp

/-- C7: for every feature id below num_features, extraction yields a sorted
(strictly increasing, hence duplicate-free) list that contains a value t
exactly when some split node on that feature in some tree of the ensemble
has threshold t; extraction is a pure function of the ensemble, so
extracting twice yields identical lists. -/
theorem extract_cut_points_spec (model : Model) (f : Nat)
    (hf : f < model.num_features) :
    ((extractCutPoints model).getD f []).Sorted (· < ·)
    ∧ (∀ t : ℚ, t ∈ (extractCutPoints model).getD f []
        ↔ ∃ tr ∈ model.trees, containsSplit f t tr = true)
    ∧ extractCutPoints model = extractCutPoints model := by
  rw [extractCutPoints_getD model f hf]
  refine ⟨Finset.sort_sorted_lt _, fun t => ?_, rfl⟩
  rw [Finset.mem_sort]
  exact mem_ensembleThresholds model f t

/-- Witness for C7 on a one-tree ensemble whose single split uses feature 0
with threshold 2. -/
theorem extract_cut_points_spec_witness :
    ((extractCutPoints ⟨1, [exSplit]⟩).getD 0 []).Sorted (· < ·)
    ∧ ((2 : ℚ) ∈ (extractCutPoints ⟨1, [exSplit]⟩).getD 0 []
        ↔ ∃ tr ∈ [exSplit], containsSplit 0 2 tr = true) := by
  have h := extract_cut_points_spec ⟨1, [exSplit]⟩ 0 (by decide)
  exact ⟨h.1, h.2.1 2⟩

/-- Modelled from the spec: the exact-match binary search used to locate a
threshold in the cut-point list of its feature (common binary_search of
treelite common.h, which is outside src): repeatedly halve the bracket
low, high and return the index of an exact hit, or none when the bracket
empties. The gas argument is a structural bound on the iteration count,
never exhausted while high - low ≤ gas. -/
def bsearchAux (arr : List ℚ) (t : ℚ) : Nat → Nat → Nat → Option Nat
  | 0, _, _ => none
  | gas + 1, low, high =>
    if low < high then
      let mid := (low + high) / 2
      if t = arr.getD mid 0 then some mid
      else if t < arr.getD mid 0 then bsearchAux arr t gas low mid
      else bsearchAux arr t gas (mid + 1) high
    else none

/-- Modelled from the spec: exact-match binary search over the whole list. -/
def binarySearch (arr : List ℚ) (t : ℚ) : Option Nat :=
  bsearchAux arr t arr.length 0 arr.length

lemma bsearchAux_finds (arr : List ℚ) (hs : arr.Sorted (· < ·)) (t : ℚ)
    (i : Nat) (hi : i < arr.length) (ht : arr.getD i 0 = t) :
    ∀ gas low high, high - low ≤ gas → low ≤ i → i < high →
      high ≤ arr.length → (bsearchAux arr t gas low high).isSome = true := by
  intro gas
  induction gas with
  | zero =>
    intro low high h1 h2 h3 h4
    omega
  | succ g ih =>
    intro low high h1 h2 h3 h4
    have hlh : low < high := by omega
    have hmh : (low + high) / 2 < high := by omega
    have hmlen : (low + high) / 2 < arr.length := by omega
    by_cases heq : t = arr.getD ((low + high) / 2) 0
    · simp only [bsearchAux, if_pos hlh, if_pos heq, Option.isSome_some]
    · by_cases hlt : t < arr.getD ((low + high) / 2) 0
      · have him : i < (low + high) / 2 := by
          by_contra hc
          have hle : arr.getD ((low + high) / 2) 0 ≤ arr.getD i 0 :=
            (sorted_getD_le_iff arr hs hmlen hi).mpr (by omega)
          rw [ht] at hle
          exact absurd (lt_of_lt_of_le hlt hle) (lt_irrefl t)
        simp only [bsearchAux, if_pos hlh, if_neg heq, if_pos hlt]
        exact ih low ((low + high) / 2) (by omega) h2 him (le_of_lt hmlen)
      · have hgt : arr.getD ((low + high) / 2) 0 < t :=
          lt_of_le_of_ne (not_lt.mp hlt) (fun h => heq h.symm)
        have hmi : (low + high) / 2 < i := by
          by_contra hc
          have hle : arr.getD i 0 ≤ arr.getD ((low + high) / 2) 0 :=
            (sorted_getD_le_iff arr hs hi hmlen).mpr (by omega)
          rw [ht] at hle
          exact absurd (lt_of_lt_of_le hgt hle) (lt_irrefl _)
        simp only [bsearchAux, if_pos hlh, if_neg heq, if_neg hlt]
        exact ih ((low + high) / 2 + 1) high (by omega) (by omega) h3 h4

/-- C4: when the cut points are extracted from the very ensemble being
compiled, the exact-match binary search performed while rendering the
condition of any split node on feature f with threshold t always succeeds,
so the fatal internal-consistency check of the quantized numeric adapter
(recursive.cc line 240) is unreachable. -/
theorem threshold_lookup_succeeds (model : Model) (f : Nat) (t : ℚ)
    (tr : TreeNode) (htr : tr ∈ model.trees)
    (hsplit : containsSplit f t tr = true) (hf : f < model.num_features) :
    (binarySearch ((extractCutPoints model).getD f []) t).isSome = true := by
  have hsorted : ((extractCutPoints model).getD f []).Sorted (· < ·) := by
    rw [extractCutPoints_getD model f hf]
    exact Finset.sort_sorted_lt _
  have hmem : t ∈ (extractCutPoints model).getD f [] := by
    rw [extractCutPoints_getD model f hf, Finset.mem_sort]
    exact (mem_ensembleThresholds model f t).mpr ⟨tr, htr, hsplit⟩
  obtain ⟨i, hti⟩ := List.mem_iff_get.mp hmem
  have hgd : ((extractCutPoints model).getD f []).getD i.1 0 = t := by
    rw [List.getD_eq_get _ _ i.2]
    exact hti
  unfold binarySearch
  exact bsearchAux_finds _ hsorted t i.1 i.2 hgd _ 0 _ (by omega) (by omega)
    i.2 (le_refl _)

/-- Witness for C4: the single split of the one-tree ensemble (feature 0,
threshold 2) is found in the extracted cut points of feature 0. -/
theorem threshold_lookup_succeeds_witness :
    (binarySearch ((extractCutPoints ⟨1, [exSplit]⟩).getD 0 []) 2).isSome
      = true :=
  threshold_lookup_succeeds ⟨1, [exSplit]⟩ 0 2 exSplit (by decide) (by decide)
    (by decide)

/-- Macro line emitted for the likely hint (recursive.cc line 127). -/
def likelyMacroDef : String :=
  "#define LIKELY(x)     __builtin_expect(!!(x), 1)"

/-- Macro line emitted for the unlikely hint (recursive.cc line 128). -/
def unlikelyMacroDef : String :=
  "#define UNLIKELY(x)   __builtin_expect(!!(x), 0)"

/-- Compiler parameters read by Export: quantize selects the policy and
annotate_in names the traversal-count file, the sentinel NULL meaning that
no counts are loaded. -/
structure CompilerParam where
  quantize : Int
  annotate_in : String
deriving DecidableEq, Repr

/-- Preamble of the Identity (NoQuantize) policy (recursive.cc lines
206-211): the declaration of the per-feature input slot union. -/
def noQuantizePreamble : List String :=
  ["union Entry \x7b", "  int missing;", "  float fvalue;", "\x7d;"]

/-- Export (recursive.cc lines 89-137) for a policy with the given preamble
and preprocessing lines. When annotate_in is not NULL the loaded count
arrays are used (loaded stands for the parsed content of the count file,
produced by the external JSON loader), otherwise the count arrays stay
empty. Each tree is walked with its count sequence when the outer count
array is non-empty and with the empty sequence otherwise; the function body
is the sum initialization, the preprocessing block, one block per tree and
the return statement; the preamble is the policy preamble, a blank line and,
exactly when annotate_in is not NULL, the two branch-hint macro lines. -/
def exportModel (policyPreamble policyPreprocessing : List String)
    (param : CompilerParam) (model : Model)
    (loaded : List (List Nat)) : CBlock :=
  let counts : List (List Nat) :=
    if param.annotate_in ≠ "NULL" then loaded else []
  let treeBlocks : List CBlock :=
    model.trees.enum.map (fun p =>
      if counts.isEmpty then walkTree [] p.2
      else walkTree (counts.getD p.1 []) p.2)
  let body : List CBlock :=
    CBlock.plain ["float sum = 0.0f;"]
      :: CBlock.plain policyPreprocessing
      :: (treeBlocks ++ [CBlock.plain ["return sum;"]])
  let pre : List String :=
    policyPreamble ++ [""]
      ++ (if param.annotate_in ≠ "NULL"
          then [likelyMacroDef, unlikelyMacroDef] else [])
  CBlock.seq [CBlock.plain pre,
    CBlock.func "float predict_margin(union Entry* data)" (CBlock.seq body)]

/-- Preamble lines of a compiled artifact. -/
def preambleOf : CBlock → List String
  | .seq (CBlock.plain p :: _) => p
  | _ => []

/-- Per-tree blocks of a compiled artifact: the function body without the
sum initialization, the preprocessing block and the return block. -/
def treeBlocksOf : CBlock → List CBlock
  | .seq [_, .func _ (.seq body)] => (body.drop 2).dropLast
  | _ => []

lemma exportModel_preambleOf (pp pr : List String) (param : CompilerParam)
    (model : Model) (loaded : List (List Nat)) :
    preambleOf (exportModel pp pr param model loaded)
      = pp ++ [""] ++ (if param.annotate_in ≠ "NULL"
          then [likelyMacroDef, unlikelyMacroDef] else []) := rfl

lemma exportModel_treeBlocksOf (pp pr : List String) (param : CompilerParam)
    (model : Model) (loaded : List (List Nat)) :
    treeBlocksOf (exportModel pp pr param model loaded)
      = model.trees.enum.map (fun p =>
          if (if param.annotate_in ≠ "NULL" then loaded else []).isEmpty
          then walkTree [] p.2
          else walkTree
            ((if param.annotate_in ≠ "NULL" then loaded else []).getD p.1 [])
            p.2) := by
  simp [exportModel, treeBlocksOf]

lemma enum_map_snd_eq_map {α β : Type} (l : List α) (f : α → β) :
    l.enum.map (fun p => f p.2) = l.map f := by
  have h : l.enum.map (fun p => f p.2) = (l.enum.map Prod.snd).map f := by
    rw [List.map_map]
    rfl
  rw [h, List.enum_map_snd]

lemma noHints_walkTree_nil (t : TreeNode) : noHints (walkTree [] t) = true := by
  induction t with
  | leaf nid v => rfl
  | split nid si op th dl l r ihl ihr =>
      simp [walkTree, noHints, likelyDir, ihl, ihr]

/-- C10: whenever annotate_in differs from NULL, the artifact preamble
contains both branch-hint macro definitions, even when the loaded outer
count array is empty; and the per-tree count sequences are consulted exactly
when the loaded array is non-empty: with an empty loaded array every tree is
walked with the empty count sequence (so no hint appears anywhere in the
tree blocks), while with a non-empty loaded array tree i is walked with
entry i of the loaded array. -/
theorem annotate_macros_and_counts (pp pr : List String)
    (param : CompilerParam) (model : Model) (loaded : List (List Nat))
    (hann : param.annotate_in ≠ "NULL") :
    likelyMacroDef ∈ preambleOf (exportModel pp pr param model loaded)
    ∧ unlikelyMacroDef ∈ preambleOf (exportModel pp pr param model loaded)
    ∧ (loaded = [] →
        treeBlocksOf (exportModel pp pr param model loaded)
          = model.trees.map (walkTree []))
    ∧ (loaded ≠ [] →
        treeBlocksOf (exportModel pp pr param model loaded)
          = model.trees.enum.map (fun p => walkTree (loaded.getD p.1 []) p.2))
    ∧ (loaded = [] →
        ∀ b ∈ treeBlocksOf (exportModel pp pr param model loaded),
          noHints b = true) := by
  have hmem : likelyMacroDef ∈ preambleOf (exportModel pp pr param model loaded)
      ∧ unlikelyMacroDef ∈ preambleOf (exportModel pp pr param model loaded) := by
    rw [exportModel_preambleOf]
    constructor <;> simp [hann]
  have htb : loaded = [] →
      treeBlocksOf (exportModel pp pr param model loaded)
        = model.trees.map (walkTree []) := by
    intro hl
    rw [exportModel_treeBlocksOf]
    subst hl
    simp only [if_pos hann, List.isEmpty_nil, if_pos rfl]
    exact enum_map_snd_eq_map model.trees (walkTree [])
  refine ⟨hmem.1, hmem.2, htb, ?_, ?_⟩
  · intro hl
    rw [exportModel_treeBlocksOf]
    rcases loaded with _ | ⟨x, xs⟩
    · exact absurd rfl hl
    · simp only [if_pos hann, List.isEmpty_cons]
      rfl
  · intro hl b hb
    rw [htb hl] at hb
    obtain ⟨t, ht, rfl⟩ := List.mem_map.mp hb
    exact noHints_walkTree_nil t

/-- Witness for C10: a one-tree ensemble compiled with an annotation path
and an empty loaded count array still gets both macro lines, and its tree
block carries no hint. -/
theorem annotate_macros_and_counts_witness :
    likelyMacroDef ∈ preambleOf
        (exportModel noQuantizePreamble [] ⟨0, "ann.json"⟩ ⟨1, [exSplit]⟩ [])
    ∧ unlikelyMacroDef ∈ preambleOf
        (exportModel noQuantizePreamble [] ⟨0, "ann.json"⟩ ⟨1, [exSplit]⟩ [])
    ∧ treeBlocksOf
        (exportModel noQuantizePreamble [] ⟨0, "ann.json"⟩ ⟨1, [exSplit]⟩ [])
        = (⟨1, [exSplit]⟩ : Model).trees.map (walkTree []) := by
  have h := annotate_macros_and_counts noQuantizePreamble []
    ⟨0, "ann.json"⟩ ⟨1, [exSplit]⟩ [] (by decide)
  exact ⟨h.1, h.2.1, h.2.2.1 rfl⟩

/-- C5 counterexample: an annotation source is supplied (annotate_in is not
the sentinel NULL) and the loaded outer array has length 0 while the
ensemble has 1 tree, yet compilation does not abort: Export produces a
complete, ordinary artifact (the tree compiled without counts, the hint
macros still emitted). -/
theorem annotation_shape_mismatch_counterexample :
    ([] : List (List Nat)).length ≠ (⟨1, [TreeNode.leaf 0 7]⟩ : Model).trees.length
    ∧ exportModel noQuantizePreamble [] ⟨0, "ann.json"⟩ ⟨1, [TreeNode.leaf 0 7]⟩ []
        = CBlock.seq [CBlock.plain (noQuantizePreamble ++ [""]
              ++ [likelyMacroDef, unlikelyMacroDef]),
            CBlock.func "float predict_margin(union Entry* data)"
              (CBlock.seq [CBlock.plain ["float sum = 0.0f;"], CBlock.plain [],
                CBlock.accum 7, CBlock.plain ["return sum;"]])] := by
  exact ⟨by decide, rfl⟩

/-- C5 amended: Export performs no shape validation of the loaded counts
against the ensemble. With an annotation source supplied and an empty loaded
outer array (a length mismatch for every ensemble with at least one tree),
compilation completes normally: the artifact compiles every tree without
counts and its preamble still carries the two hint macros; with a non-empty
loaded array, the entries are consumed by tree position without any length
check. -/
theorem annotation_shape_mismatch_behavior (pp pr : List String)
    (param : CompilerParam) (model : Model)
    (hann : param.annotate_in ≠ "NULL") :
    exportModel pp pr param model []
      = CBlock.seq [CBlock.plain (pp ++ [""]
            ++ [likelyMacroDef, unlikelyMacroDef]),
          CBlock.func "float predict_margin(union Entry* data)"
            (CBlock.seq (CBlock.plain ["float sum = 0.0f;"]
              :: CBlock.plain pr
              :: (model.trees.map (walkTree [])
                  ++ [CBlock.plain ["return sum;"]])))] := by
  unfold exportModel
  rw [if_pos hann]
  simp [hann, enum_map_snd_eq_map model.trees (walkTree [])]

/-- Witness for C5 amended: the two-leaf-tree ensemble compiled with an
annotation path and an empty loaded array. -/
theorem annotation_shape_mismatch_behavior_witness :
    exportModel noQuantizePreamble [] ⟨0, "counts.json"⟩
      ⟨1, [TreeNode.leaf 0 7, TreeNode.leaf 0 8]⟩ []
      = CBlock.seq [CBlock.plain (noQuantizePreamble ++ [""]
            ++ [likelyMacroDef, unlikelyMacroDef]),
          CBlock.func "float predict_margin(union Entry* data)"
            (CBlock.seq (CBlock.plain ["float sum = 0.0f;"]
              :: CBlock.plain []
              :: ((⟨1, [TreeNode.leaf 0 7, TreeNode.leaf 0 8]⟩ : Model).trees.map
                    (walkTree [])
                  ++ [CBlock.plain ["return sum;"]])))] :=
  annotation_shape_mismatch_behavior noQuantizePreamble []
    ⟨0, "counts.json"⟩
    ⟨1, [TreeNode.leaf 0 7, TreeNode.leaf 0 8]⟩ (by decide)

end Treelite
